import Mathlib

/-!
Verification of the dense multilinear polynomial core (`dense_mlpoly.rs`).

The prime-field scalar type is abstracted by an arbitrary commutative ring
`F` (every prime field is one); all definitions are straight translations of
the Rust source.  Vectors become `List F`, in-place updates become
`List.set`, and the `for` loops become structural recursions that process
indices in the same order as the source.
-/

namespace Spartan

variable {F : Type} [CommRing F]

/-- Sum `f 0 + ... + f (n-1)`, used to state summation properties. -/
def sumF (n : Nat) (f : Nat → F) : F := ((List.range n).map f).sum

/-- Product `f 0 * ... * f (n-1)`, used to state product properties. -/
def prodF (n : Nat) (f : Nat → F) : F := ((List.range n).map f).prod

namespace EqPolynomial

/-- Translation of `EqPolynomial::evaluate`:
`Π_i (r[i]*rx[i] + (1-r[i])*(1-rx[i]))` (the source asserts
`r.len() == rx.len()`; that precondition appears as a hypothesis in the
theorems). -/
def evaluate (r rx : List F) : F :=
  ((List.range rx.length).map (fun i =>
    r.getD i 0 * rx.getD i 0 + (1 - r.getD i 0) * (1 - rx.getD i 0))).prod

/-- Translation of the inner loop of `EqPolynomial::evals`:
`for i in (0..size).rev().step_by(2)` visits the odd indices
`size-1, size-3, ..., 1`; the argument `k` is the number of remaining
iterations, so the call with `k+1` handles `i = 2*k+1` and recurses
downwards, exactly as the source iterates.  Each iteration reads
`scalar = evals[i/2]`, writes `evals[i] = scalar * r[j]` and then
`evals[i-1] = scalar - evals[i]`. -/
def evalsInner (rj : F) : Nat → List F → List F
  | 0, ev => ev
  | k + 1, ev =>
    let i := 2 * k + 1
    let scalar := ev.getD (i / 2) 0
    let ev1 := ev.set i (scalar * rj)
    let ev2 := ev1.set (i - 1) (scalar - ev1.getD i 0)
    evalsInner rj k ev2

/-- Translation of the outer loop of `EqPolynomial::evals`: for each
coordinate `r[j]` the running `size` doubles and the inner loop sweeps the
odd indices below the doubled size (there are `size*2/2` of them). -/
def evalsLoop : List F → Nat → List F → List F
  | [], _, ev => ev
  | rj :: rest, size, ev =>
    let size2 := size * 2
    evalsLoop rest size2 (evalsInner rj (size2 / 2) ev)

/-- Translation of `EqPolynomial::evals`: starts from the all-ones vector of
length `2^ell` (`ell.pow2()` in the source) with `size = 1`. -/
def evals (r : List F) : List F :=
  evalsLoop r 1 (List.replicate (2 ^ r.length) (1 : F))

/-- Translation of `EqPolynomial::compute_factored_lens`. -/
def compute_factored_lens (ell : Nat) : Nat × Nat :=
  (ell / 2, ell - ell / 2)

/-- Translation of `EqPolynomial::compute_factored_evals`: `L` is `evals` of
`r[..left]`, `R` is `evals` of `r[left..]` where
`left = compute_factored_lens(ell).0`. -/
def compute_factored_evals (r : List F) : List F × List F :=
  let ell := r.length
  let left_num_vars := (compute_factored_lens ell).1
  (evals (r.take left_num_vars), evals (r.drop left_num_vars))

end EqPolynomial

namespace IdentityPolynomial

/-- Translation of `IdentityPolynomial::evaluate`:
`Σ_i Scalar::from((len - i - 1).pow2()) * r[i]` where `len = r.len()`
(the source asserts `len == size_point`; that precondition appears as a
hypothesis in the theorem). -/
def evaluate (r : List F) : F :=
  ((List.range r.length).map (fun i =>
    ((2 ^ (r.length - i - 1) : Nat) : F) * r.getD i 0)).sum

end IdentityPolynomial

/-- Translation of the `DensePolynomial` struct: evaluation table `Z` plus
the bookkeeping fields `num_vars` and `len`. -/
structure DensePolynomial (F : Type) where
  num_vars : Nat
  len : Nat
  Z : List F
deriving DecidableEq

namespace DensePolynomial

/-- Translation of `DensePolynomial::new`.  The source computes
`num_vars = len.log2()` with `log2` from the repository's `math.rs`, which
is not part of the sources at hand; modelled from the spec:
"`num_vars = log2(Z.len())`; fails (or is undefined) if `Z.len()` is not a
power of two" — `Nat.log2` agrees with that on every power of two. -/
def new (Z : List F) : DensePolynomial F :=
  { num_vars := Nat.log2 Z.length, len := Z.length, Z := Z }

/-- Translation of `DensePolynomial::get_num_vars`. -/
def get_num_vars (p : DensePolynomial F) : Nat := p.num_vars

/-- Translation of `DensePolynomial::vec`. -/
def vec (p : DensePolynomial F) : List F := p.Z

/-- Translation of `DensePolynomial::clone`: rebuilds from `Z[0..len]`. -/
def clone (p : DensePolynomial F) : DensePolynomial F :=
  new (p.Z.take p.len)

/-- Translation of `DensePolynomial::split`: returns the polynomials built
from `Z[..idx]` and `Z[idx..2*idx]` (the source asserts `idx < len`). -/
def split (p : DensePolynomial F) (idx : Nat) : DensePolynomial F × DensePolynomial F :=
  (new (p.Z.take idx), new ((p.Z.drop idx).take idx))

/-- Translation of the loop in `DensePolynomial::bound_poly_var_top`:
`for i in 0..n { Z[i] = Z[i] + r * (Z[i+n] - Z[i]) }`; the argument `k` is
the number of iterations already required, processed in increasing order of
`i` exactly as the source. -/
def boundTopIter (r : F) (n : Nat) : Nat → List F → List F
  | 0, Z => Z
  | k + 1, Z =>
    let Z' := boundTopIter r n k Z
    Z'.set k (Z'.getD k 0 + r * (Z'.getD (k + n) 0 - Z'.getD k 0))

/-- Translation of `DensePolynomial::bound_poly_var_top`: runs the loop with
`n = len/2`, then `num_vars -= 1` and `len = n`.  The backing vector is not
truncated, exactly as in the source. -/
def bound_poly_var_top (p : DensePolynomial F) (r : F) : DensePolynomial F :=
  let n := p.len / 2
  { num_vars := p.num_vars - 1, len := n, Z := boundTopIter r n n p.Z }

/-- Translation of the loop in `DensePolynomial::bound_poly_var_bot`:
`for i in 0..n { Z[i] = Z[2*i] + r * (Z[2*i+1] - Z[2*i]) }`. -/
def boundBotIter (r : F) : Nat → List F → List F
  | 0, Z => Z
  | k + 1, Z =>
    let Z' := boundBotIter r k Z
    Z'.set k (Z'.getD (2 * k) 0 + r * (Z'.getD (2 * k + 1) 0 - Z'.getD (2 * k) 0))

/-- Translation of `DensePolynomial::bound_poly_var_bot`. -/
def bound_poly_var_bot (p : DensePolynomial F) (r : F) : DensePolynomial F :=
  let n := p.len / 2
  { num_vars := p.num_vars - 1, len := n, Z := boundBotIter r n p.Z }

/-- Translation of `DensePolynomial::evaluate`:
`chis = EqPolynomial::new(r).evals(); Σ_i chis[i] * Z[i]` (the source
asserts `r.len() == num_vars` and `chis.len() == Z.len()`; those
preconditions appear as hypotheses in the theorems). -/
def evaluate (p : DensePolynomial F) (r : List F) : F :=
  let chis := EqPolynomial.evals r
  ((List.range chis.length).map (fun i => chis.getD i 0 * p.Z.getD i 0)).sum

/-- Translation of `DensePolynomial::extend`: appends `other`'s table,
increments `num_vars`, doubles `len` (the source asserts
`self.Z.len() == self.len` and `other.vec().len() == self.len`; those
preconditions appear as hypotheses in the theorems). -/
def extend (p other : DensePolynomial F) : DensePolynomial F :=
  { num_vars := p.num_vars + 1, len := p.len * 2, Z := p.Z ++ other.vec }

/-- `usize::next_power_of_two` (Rust standard library): the smallest power
of two that is `≥ n`, with `0` mapped to `1`; `2 ^ Nat.clog 2 n` is exactly
that value. -/
def next_power_of_two (n : Nat) : Nat := 2 ^ Nat.clog 2 n

/-- `Vec::resize(n, v)` (Rust standard library): truncates to `n` elements
when shrinking and pads with copies of `v` when growing. -/
def resizeVec (l : List F) (n : Nat) (v : F) : List F :=
  if n ≤ l.length then l.take n else l ++ List.replicate (n - l.length) v

/-- Translation of `DensePolynomial::merge`: concatenates the backing
vectors of all inputs in order, then resizes up to the next power of two,
padding with `Scalar::zero()`. -/
def merge (polys : List (DensePolynomial F)) : DensePolynomial F :=
  let Z := polys.foldl (fun acc p => acc ++ p.vec) []
  let Zp := resizeVec Z (next_power_of_two Z.length) 0
  new Zp

end DensePolynomial

/-- Translation of the `ProofVerifyError` kind used by `verify`. -/
inductive ProofVerifyError where
  | InternalError
deriving DecidableEq

namespace PolyEvalProof

/-- Translation of `PolyEvalProof::verify`.  The external vector-commitment
collaborator (`LigeroEvalProof::verify`, an out-of-scope dependency) is
abstracted as the function `externalVerify`, applied to the `L` and `R`
vectors the verifier computes from `r`; its `Result<Scalar, _>` becomes
`Except Unit F`.  A Rust panic (the `assert_eq!` on the variable split and
the `.unwrap()` on the external result) is modelled as `none`; a normal
return is `some`. -/
def verify [DecidableEq F] (left_num_vars right_num_vars : Nat) (r : List F)
    (externalVerify : List F → List F → Except Unit F) (eval : F) :
    Option (Except ProofVerifyError Unit) :=
  if left_num_vars + right_num_vars = r.length then
    let L := EqPolynomial.evals (r.take left_num_vars)
    let R := EqPolynomial.evals (r.drop left_num_vars)
    match externalVerify L R with
    | Except.error _ => none
    | Except.ok res =>
        if res = eval then some (Except.ok ()) else some (Except.error ProofVerifyError.InternalError)
  else none

end PolyEvalProof

namespace Tests

/-- Translation of the test helper `evaluate_with_LR`: computes
`L · (Z as an m×m matrix) · R` from `compute_factored_evals`.  The source
computes `m = n.square_root()` with `square_root` from the repository's
`math.rs`, which is not part of the sources at hand; modelled from the
spec: "compute `m = sqrt(n) = 2^{ell/2}`" — `Nat.sqrt` agrees with that on
every even power of two. -/
def evaluate_with_LR (Z r : List F) : F :=
  let LR := EqPolynomial.compute_factored_evals r
  let L := LR.1
  let R := LR.2
  let n := 2 ^ r.length
  let m := Nat.sqrt n
  let LZ := (List.range m).map (fun i =>
    ((List.range m).map (fun j => L.getD j 0 * Z.getD (j * m + i) 0)).sum)
  ((List.range LZ.length).map (fun i => LZ.getD i 0 * R.getD i 0)).sum

/-- Translation of the test reference computation `compute_chis_at_r`: the
length-`2^ell` table whose entry `i` is the product over `j` of
`r[j]` if bit `ell-1-j` of `i` is set and `1 - r[j]` otherwise. -/
def compute_chis_at_r (r : List F) : List F :=
  (List.range (2 ^ r.length)).map (fun i =>
    (List.range r.length).foldl (fun chi j =>
      if i &&& (1 <<< (r.length - j - 1)) > 0 then chi * r.getD j 0
      else chi * (1 - r.getD j 0)) 1)

end Tests

/-- The point of `{0,1}^n` whose coordinates are the big-endian bits of the
index `i` (bit 0 of the point is the most significant bit of `i`), as ring
elements; used to state the multilinear-extension property. -/
def bitsBE (n i : Nat) : List F :=
  (List.range n).map (fun j => if i.testBit (n - 1 - j) then (1 : F) else 0)

/-- The Lagrange-basis coefficient of index `i`, with the coordinate list
given least-significant-bit first; the proofs relate the source algorithms
to this structurally recursive form. -/
def chiLSB (i : Nat) : List F → F
  | [] => 1
  | rj :: rest => (if i % 2 = 1 then rj else 1 - rj) * chiLSB (i / 2) rest

/-! ### Generic list helpers -/

theorem getD_set_self {α : Type} {l : List α} {i : Nat} (a d : α) (h : i < l.length) :
    (l.set i a).getD i d = a := by
  simp [List.getD_eq_getElem?_getD, List.getElem?_set_self h]

theorem getD_set_ne {α : Type} {l : List α} {i j : Nat} (a d : α) (h : i ≠ j) :
    (l.set i a).getD j d = l.getD j d := by
  simp [List.getD_eq_getElem?_getD, List.getElem?_set_ne h]

theorem sumF_succ (n : Nat) (f : Nat → F) : sumF (n + 1) f = sumF n f + f n := by
  simp [sumF, List.range_succ]

theorem sumF_congr {n : Nat} {f g : Nat → F} (h : ∀ i, i < n → f i = g i) :
    sumF n f = sumF n g := by
  induction n with
  | zero => rfl
  | succ k ih =>
    rw [sumF_succ, sumF_succ, ih (fun i hi => h i (by omega)), h k (by omega)]

theorem sumF_add (m n : Nat) (f : Nat → F) :
    sumF (m + n) f = sumF m f + sumF n (fun i => f (m + i)) := by
  induction n with
  | zero => simp [sumF]
  | succ k ih =>
    have h1 : m + (k + 1) = (m + k) + 1 := rfl
    rw [h1, sumF_succ, ih, sumF_succ]
    ring

theorem prodF_succ (n : Nat) (f : Nat → F) : prodF (n + 1) f = prodF n f * f n := by
  simp [prodF, List.range_succ]

theorem prodF_congr {n : Nat} {f g : Nat → F} (h : ∀ i, i < n → f i = g i) :
    prodF n f = prodF n g := by
  induction n with
  | zero => rfl
  | succ k ih =>
    rw [prodF_succ, prodF_succ, ih (fun i hi => h i (by omega)), h k (by omega)]

theorem prodF_succ_front (n : Nat) (f : Nat → F) :
    prodF (n + 1) f = f 0 * prodF n (fun j => f (j + 1)) := by
  simp [prodF, List.range_succ_eq_map, List.map_map, Function.comp_def]

/-! ### chiLSB facts -/

theorem chiLSB_mod (l : List F) : ∀ m : Nat, chiLSB (m % 2 ^ l.length) l = chiLSB m l := by
  induction l with
  | nil => intro m; rfl
  | cons a rest ih =>
    intro m
    have hlen : (a :: rest).length = rest.length + 1 := rfl
    have h2 : (2 : Nat) ^ (rest.length + 1) = 2 * 2 ^ rest.length := by ring
    have hmod : m % 2 ^ (rest.length + 1) % 2 = m % 2 := by
      rw [h2]; exact Nat.mod_mod_of_dvd m (Dvd.intro _ rfl)
    have hdiv : m % 2 ^ (rest.length + 1) / 2 = m / 2 % 2 ^ rest.length := by
      rw [h2]
      exact Nat.mod_mul_right_div_self m 2 (2 ^ rest.length)
    rw [hlen, chiLSB, chiLSB, hmod, hdiv, ih (m / 2)]

theorem chiLSB_nil (m : Nat) : chiLSB m ([] : List F) = 1 := rfl

theorem chiLSB_cons (m : Nat) (a : F) (l : List F) :
    chiLSB m (a :: l) = (if m % 2 = 1 then a else 1 - a) * chiLSB (m / 2) l := rfl

theorem chiLSB_append (A B : List F) :
    ∀ m : Nat, chiLSB m (A ++ B) = chiLSB m A * chiLSB (m / 2 ^ A.length) B := by
  induction A with
  | nil => intro m; simp [chiLSB_nil, chiLSB_cons]
  | cons a rest ih =>
    intro m
    have hdd : m / 2 / 2 ^ rest.length = m / 2 ^ (rest.length + 1) := by
      rw [Nat.div_div_eq_div_mul]; ring_nf
    rw [List.cons_append, chiLSB_cons m a (rest ++ B), chiLSB_cons m a rest, ih (m / 2),
      List.length_cons, ← hdd]
    ring

theorem chiLSB_singleton (m : Nat) (a : F) :
    chiLSB m [a] = if m % 2 = 1 then a else 1 - a := by
  simp [chiLSB]

/-! ### Characterization of the evals doubling algorithm -/

theorem length_evalsInner (rj : F) :
    ∀ (k : Nat) (ev : List F), (EqPolynomial.evalsInner rj k ev).length = ev.length := by
  intro k
  induction k with
  | zero => intro ev; rfl
  | succ k ih => intro ev; simp [EqPolynomial.evalsInner, ih]

theorem getD_evalsInner (rj : F) :
    ∀ (k : Nat) (ev : List F), 2 * k ≤ ev.length → ∀ m : Nat,
      (EqPolynomial.evalsInner rj k ev).getD m 0 =
        if m < 2 * k then
          (if m % 2 = 1 then ev.getD (m / 2) 0 * rj
           else ev.getD (m / 2) 0 - ev.getD (m / 2) 0 * rj)
        else ev.getD m 0 := by
  intro k
  induction k with
  | zero =>
    intro ev _ m
    simp [EqPolynomial.evalsInner]
  | succ k ih =>
    intro ev hk m
    have hi2 : (2 * k + 1) / 2 = k := by omega
    have hi1 : 2 * k + 1 - 1 = 2 * k := by omega
    have hlt1 : 2 * k + 1 < ev.length := by omega
    set s := ev.getD k 0 with hs
    have hread : (ev.set (2 * k + 1) (s * rj)).getD (2 * k + 1) 0 = s * rj :=
      getD_set_self _ _ hlt1
    have hstep : EqPolynomial.evalsInner rj (k + 1) ev =
        EqPolynomial.evalsInner rj k
          ((ev.set (2 * k + 1) (s * rj)).set (2 * k) (s - s * rj)) := by
      simp only [EqPolynomial.evalsInner, hi2, hi1, ← hs, hread]
    set ev2 := (ev.set (2 * k + 1) (s * rj)).set (2 * k) (s - s * rj) with hev2
    have hlen2 : ev2.length = ev.length := by simp [hev2]
    have hk2 : 2 * k ≤ ev2.length := by omega
    rw [hstep, ih ev2 hk2 m]
    by_cases hm : m < 2 * k
    · have hne1 : (2 * k : Nat) ≠ m / 2 := by omega
      have hne2 : (2 * k + 1 : Nat) ≠ m / 2 := by omega
      have hget : ev2.getD (m / 2) 0 = ev.getD (m / 2) 0 := by
        rw [hev2, getD_set_ne _ _ hne1, getD_set_ne _ _ hne2]
      rw [if_pos hm, if_pos (by omega : m < 2 * (k + 1)), hget]
    · rw [if_neg hm]
      by_cases hm1 : m = 2 * k
      · have : ev2.getD m 0 = s - s * rj := by
          rw [hev2, hm1]
          exact getD_set_self _ _ (by simp; omega)
        rw [this, if_pos (by omega : m < 2 * (k + 1)), if_neg (by omega : ¬ m % 2 = 1)]
        have : m / 2 = k := by omega
        rw [this, ← hs]
      · by_cases hm2 : m = 2 * k + 1
        · have : ev2.getD m 0 = s * rj := by
            rw [hev2, getD_set_ne _ _ (by omega : (2 * k : Nat) ≠ m), hm2]
            exact getD_set_self _ _ hlt1
          rw [this, if_pos (by omega : m < 2 * (k + 1)), if_pos (by omega : m % 2 = 1)]
          have : m / 2 = k := by omega
          rw [this, ← hs]
        · have : ev2.getD m 0 = ev.getD m 0 := by
            rw [hev2, getD_set_ne _ _ (by omega : (2 * k : Nat) ≠ m),
              getD_set_ne _ _ (by omega : (2 * k + 1 : Nat) ≠ m)]
          rw [this, if_neg (by omega : ¬ m < 2 * (k + 1))]

theorem length_evalsLoop :
    ∀ (rs : List F) (s : Nat) (ev : List F), (EqPolynomial.evalsLoop rs s ev).length = ev.length := by
  intro rs
  induction rs with
  | nil => intro s ev; rfl
  | cons rj rest ih =>
    intro s ev
    simp only [EqPolynomial.evalsLoop]
    rw [ih, length_evalsInner]

theorem getD_evalsLoop :
    ∀ (rs : List F) (s : Nat) (ev : List F), s * 2 ^ rs.length ≤ ev.length → ∀ m : Nat,
      (EqPolynomial.evalsLoop rs s ev).getD m 0 =
        if m < s * 2 ^ rs.length then
          ev.getD (m / 2 ^ rs.length) 0 * chiLSB (m % 2 ^ rs.length) rs.reverse
        else ev.getD m 0 := by
  intro rs
  induction rs with
  | nil =>
    intro s ev _ m
    simp [EqPolynomial.evalsLoop, chiLSB]
  | cons rj rest ih =>
    intro s ev hs m
    have ht : (rj :: rest).length = rest.length + 1 := rfl
    set t := rest.length with htt
    have hpow : s * 2 ^ (t + 1) = s * 2 * 2 ^ t := by ring
    have hcount : s * 2 / 2 = s := by omega
    have hstep : EqPolynomial.evalsLoop (rj :: rest) s ev =
        EqPolynomial.evalsLoop rest (s * 2) (EqPolynomial.evalsInner rj s ev) := by
      simp only [EqPolynomial.evalsLoop, hcount]
    set ev' := EqPolynomial.evalsInner rj s ev with hev'
    have hlen' : ev'.length = ev.length := length_evalsInner rj s ev
    have hsle : s * 2 * 2 ^ t ≤ ev.length := by rw [ht, hpow] at hs; exact hs
    have hle : s * 2 * 2 ^ t ≤ ev'.length := by rw [hlen']; exact hsle
    have h2s : 2 * s ≤ ev.length :=
      calc 2 * s = s * 2 * 1 := by ring
        _ ≤ s * 2 * 2 ^ t := Nat.mul_le_mul_left (s * 2) Nat.one_le_two_pow
        _ ≤ ev.length := hsle
    rw [hstep, ih (s * 2) ev' hle m, ht]
    have hrev : (rj :: rest).reverse = rest.reverse ++ [rj] := by simp
    have hlr : rest.reverse.length = t := by simp [htt]
    have hmodt : chiLSB (m % 2 ^ t) rest.reverse = chiLSB m rest.reverse := by
      have h := chiLSB_mod (F := F) rest.reverse m
      rwa [hlr] at h
    by_cases hm : m < s * 2 ^ (t + 1)
    · have hmlt : m < s * 2 * 2 ^ t := by rw [← hpow]; exact hm
      rw [if_pos hmlt, if_pos hm, hev']
      have hx : m / 2 ^ t < 2 * s := by
        rw [Nat.div_lt_iff_lt_mul (Nat.two_pow_pos t)]
        calc m < s * 2 * 2 ^ t := hmlt
          _ = 2 * s * 2 ^ t := by ring
      rw [getD_evalsInner rj s ev h2s (m / 2 ^ t), if_pos hx]
      have hdd : m / 2 ^ t / 2 = m / 2 ^ (t + 1) := by
        rw [Nat.div_div_eq_div_mul]; ring_nf
      have hmm : m % 2 ^ (t + 1) / 2 ^ t % 2 = m / 2 ^ t % 2 := by
        have h : (2 : Nat) ^ (t + 1) = 2 ^ t * 2 := by ring
        rw [h, Nat.mod_mul_right_div_self]
        omega
      have hc1 : chiLSB (m % 2 ^ (t + 1)) rest.reverse = chiLSB m rest.reverse := by
        have e2 : m % 2 ^ (t + 1) % 2 ^ t = m % 2 ^ t :=
          Nat.mod_mod_of_dvd m (pow_dvd_pow 2 (by omega))
        have h1 := chiLSB_mod (F := F) rest.reverse (m % 2 ^ (t + 1))
        rw [hlr, e2] at h1
        rw [← h1, hmodt]
      rw [hrev, chiLSB_append, chiLSB_singleton, hlr, hc1, hmm, hdd, hmodt]
      split <;> ring
    · have hmge : ¬ m < s * 2 * 2 ^ t := by rw [← hpow]; exact hm
      rw [if_neg hmge, if_neg hm, hev']
      rw [getD_evalsInner rj s ev h2s m]
      have hchain : s * 2 ≤ m :=
        le_trans (Nat.le_mul_of_pos_right (s * 2) (Nat.two_pow_pos t)) (Nat.le_of_not_lt hmge)
      rw [if_neg (by omega)]

theorem length_evals (r : List F) : (EqPolynomial.evals r).length = 2 ^ r.length := by
  simp [EqPolynomial.evals, length_evalsLoop]

theorem getD_evals (r : List F) (m : Nat) (hm : m < 2 ^ r.length) :
    (EqPolynomial.evals r).getD m 0 = chiLSB m r.reverse := by
  unfold EqPolynomial.evals
  rw [getD_evalsLoop r 1 _ (by simp) m]
  rw [if_pos (by omega)]
  have h0 : m / 2 ^ r.length = 0 := Nat.div_eq_of_lt hm
  have h1 : m % 2 ^ r.length = m := Nat.mod_eq_of_lt hm
  rw [h0, h1]
  have : (List.replicate (2 ^ r.length) (1 : F)).getD 0 0 = 1 := by
    simp [List.getD_eq_getElem?_getD, List.getElem?_replicate, Nat.two_pow_pos]
  rw [this, one_mul]

/-! ### The closed product form of the table entries -/

theorem chiLSB_reverse_eq_prod (r : List F) :
    ∀ m : Nat, chiLSB m r.reverse =
      prodF r.length (fun j =>
        if m.testBit (r.length - 1 - j) then r.getD j 0 else 1 - r.getD j 0) := by
  induction r with
  | nil => intro m; rfl
  | cons r0 rest ih =>
    intro m
    have hlr : rest.reverse.length = rest.length := by simp
    have h1 : (r0 :: rest).reverse = rest.reverse ++ [r0] := by simp
    rw [h1, chiLSB_append, chiLSB_singleton, hlr, ih m]
    have hlen : (r0 :: rest).length = rest.length + 1 := rfl
    rw [hlen, prodF_succ_front]
    have hf0 : (if m.testBit (rest.length + 1 - 1 - 0) then (r0 :: rest).getD 0 0
        else 1 - (r0 :: rest).getD 0 0) =
        (if m / 2 ^ rest.length % 2 = 1 then r0 else 1 - r0) := by
      have he : rest.length + 1 - 1 - 0 = rest.length := by omega
      rw [he]
      simp [Nat.testBit_to_div_mod]
    rw [hf0]
    have hrest : prodF rest.length (fun j =>
        if m.testBit (rest.length + 1 - 1 - (j + 1)) then (r0 :: rest).getD (j + 1) 0
        else 1 - (r0 :: rest).getD (j + 1) 0) =
        prodF rest.length (fun j =>
          if m.testBit (rest.length - 1 - j) then rest.getD j 0 else 1 - rest.getD j 0) := by
      apply prodF_congr
      intro i _
      have he : rest.length + 1 - 1 - (i + 1) = rest.length - 1 - i := by omega
      rw [he, List.getD_cons_succ]
    rw [hrest]
    ring

theorem and_shift_pos_iff (i k : Nat) : (i &&& (1 <<< k) > 0) ↔ i.testBit k = true := by
  rw [Nat.one_shiftLeft, Nat.and_two_pow]
  cases h : i.testBit k <;> simp [Nat.two_pow_pos]

theorem getD_evals_prod (r : List F) (i : Nat) (hi : i < 2 ^ r.length) :
    (EqPolynomial.evals r).getD i 0 =
      prodF r.length (fun j =>
        if i &&& (1 <<< (r.length - j - 1)) > 0 then r.getD j 0 else 1 - r.getD j 0) := by
  rw [getD_evals r i hi, chiLSB_reverse_eq_prod]
  apply prodF_congr
  intro j _
  have he : r.length - 1 - j = r.length - j - 1 := by omega
  rw [he]
  exact if_congr (and_shift_pos_iff i (r.length - j - 1)).symm rfl rfl

theorem foldl_chi (p : Nat → Prop) [DecidablePred p] (a b : Nat → F) :
    ∀ (l : List Nat) (c : F),
      l.foldl (fun chi j => if p j then chi * a j else chi * b j) c =
        c * (l.map (fun j => if p j then a j else b j)).prod := by
  intro l
  induction l with
  | nil => intro c; simp
  | cons x xs ih =>
    intro c
    rw [List.foldl_cons, ih, List.map_cons, List.prod_cons]
    split <;> ring

theorem compute_chis_at_r_eq (r : List F) :
    Tests.compute_chis_at_r r = (List.range (2 ^ r.length)).map (fun i =>
      prodF r.length (fun j =>
        if i &&& (1 <<< (r.length - j - 1)) > 0 then r.getD j 0 else 1 - r.getD j 0)) := by
  unfold Tests.compute_chis_at_r
  apply List.map_congr_left
  intro i _
  rw [foldl_chi (fun j => i &&& (1 <<< (r.length - j - 1)) > 0)
    (fun j => r.getD j 0) (fun j => 1 - r.getD j 0) (List.range r.length) 1, one_mul]
  rfl

theorem getElem?_eq_some_getD {α : Type} (l : List α) (n : Nat) (d : α) (h : n < l.length) :
    l[n]? = some (l.getD n d) := by
  rw [List.getD_eq_getElem?_getD, List.getElem?_eq_getElem h]
  rfl

theorem length_compute_chis (r : List F) :
    (Tests.compute_chis_at_r r).length = 2 ^ r.length := by
  simp [Tests.compute_chis_at_r]

theorem evals_eq_compute_chis (r : List F) :
    EqPolynomial.evals r = Tests.compute_chis_at_r r := by
  apply List.ext_getElem?
  intro n
  by_cases hn : n < 2 ^ r.length
  · rw [getElem?_eq_some_getD _ n 0 (by rw [length_evals]; exact hn),
      getElem?_eq_some_getD _ n 0 (by rw [length_compute_chis]; exact hn)]
    have hval : (Tests.compute_chis_at_r r).getD n 0 =
        prodF r.length (fun j =>
          if n &&& (1 <<< (r.length - j - 1)) > 0 then r.getD j 0 else 1 - r.getD j 0) := by
      rw [compute_chis_at_r_eq]
      simp [List.getD_eq_getElem?_getD, List.getElem?_range, hn]
    rw [hval, getD_evals_prod r n hn]
  · rw [List.getElem?_eq_none (by rw [length_evals]; omega),
      List.getElem?_eq_none (by rw [length_compute_chis]; omega)]

/-! ### The multilinear-extension form of the equality polynomial -/

theorem getD_bitsBE (n i j : Nat) (hj : j < n) :
    (bitsBE n i : List F).getD j 0 = if i.testBit (n - 1 - j) then 1 else 0 := by
  simp [bitsBE, List.getD_eq_getElem?_getD, List.getElem?_range, hj]

theorem length_bitsBE (n i : Nat) : (bitsBE n i : List F).length = n := by
  simp [bitsBE]

theorem eq_evaluate_bitsBE (r : List F) (i : Nat) :
    EqPolynomial.evaluate r (bitsBE r.length i) = chiLSB i r.reverse := by
  rw [chiLSB_reverse_eq_prod]
  unfold EqPolynomial.evaluate
  rw [length_bitsBE]
  show prodF r.length _ = _
  apply prodF_congr
  intro j hj
  rw [getD_bitsBE r.length i j hj]
  split <;> ring

/-! ### Factored table entries -/

theorem length_take_half (r : List F) : (r.take (r.length / 2)).length = r.length / 2 := by
  simp [List.length_take, Nat.min_eq_left (Nat.div_le_self r.length 2)]

theorem length_drop_half (r : List F) : (r.drop (r.length / 2)).length = r.length - r.length / 2 := by
  simp [List.length_drop]

theorem factored_evals_entry (r : List F) (m : Nat) (hm : m < 2 ^ r.length) :
    (EqPolynomial.evals r).getD m 0 =
      (EqPolynomial.compute_factored_evals r).1.getD (m / 2 ^ (r.length - r.length / 2)) 0 *
        (EqPolynomial.compute_factored_evals r).2.getD (m % 2 ^ (r.length - r.length / 2)) 0 := by
  unfold EqPolynomial.compute_factored_evals EqPolynomial.compute_factored_lens
  set lo := r.length / 2 with hlo
  set hi := r.length - r.length / 2 with hhi
  have hsplit : lo + hi = r.length := by omega
  have hq : m / 2 ^ hi < 2 ^ lo := by
    rw [Nat.div_lt_iff_lt_mul (Nat.two_pow_pos hi), ← pow_add]
    rw [hsplit]
    exact hm
  have hrem : m % 2 ^ hi < 2 ^ hi := Nat.mod_lt m (Nat.two_pow_pos hi)
  have hL : (EqPolynomial.evals (r.take lo)).getD (m / 2 ^ hi) 0 =
      chiLSB (m / 2 ^ hi) (r.take lo).reverse := by
    apply getD_evals
    rw [length_take_half]
    exact hq
  have hR : (EqPolynomial.evals (r.drop lo)).getD (m % 2 ^ hi) 0 =
      chiLSB (m % 2 ^ hi) (r.drop lo).reverse := by
    apply getD_evals
    rw [length_drop_half]
    exact hrem
  rw [getD_evals r m hm, hL, hR]
  have hrev : r.reverse = (r.drop lo).reverse ++ (r.take lo).reverse := by
    rw [← List.reverse_append, List.take_append_drop]
  have hdlen : (r.drop lo).reverse.length = hi := by
    rw [List.length_reverse, length_drop_half]
  rw [hrev, chiLSB_append, hdlen]
  have hmod : chiLSB m (r.drop lo).reverse = chiLSB (m % 2 ^ hi) (r.drop lo).reverse := by
    have h := chiLSB_mod (F := F) (r.drop lo).reverse m
    rw [hdlen] at h
    exact h.symm
  rw [hmod]
  ring

theorem factored_outer_entry (r : List F) (i j : Nat)
    (hi : i < 2 ^ (r.length / 2)) (hj : j < 2 ^ (r.length - r.length / 2)) :
    (EqPolynomial.evals r).getD (i * 2 ^ (r.length - r.length / 2) + j) 0 =
      (EqPolynomial.compute_factored_evals r).1.getD i 0 *
        (EqPolynomial.compute_factored_evals r).2.getD j 0 := by
  set c := 2 ^ (r.length - r.length / 2) with hc
  have hcpos : 0 < c := Nat.two_pow_pos _
  have hq : (i * c + j) / c = i := by
    have he : i * c + j = c * i + j := by ring
    rw [he, Nat.mul_add_div hcpos, Nat.div_eq_of_lt hj, Nat.add_zero]
  have hr : (i * c + j) % c = j := by
    have he : i * c + j = c * i + j := by ring
    rw [he, Nat.mul_add_mod, Nat.mod_eq_of_lt hj]
  have hm : i * c + j < 2 ^ r.length := by
    calc i * c + j < i * c + c := by omega
      _ = (i + 1) * c := by ring
      _ ≤ 2 ^ (r.length / 2) * c := Nat.mul_le_mul_right c hi
      _ = 2 ^ (r.length / 2 + (r.length - r.length / 2)) := by rw [hc, ← pow_add]
      _ = 2 ^ r.length := by congr 1; omega
  rw [factored_evals_entry r _ hm, hq, hr]

theorem evaluate_eq_sumF (p : DensePolynomial F) (r : List F) :
    p.evaluate r = sumF (2 ^ r.length) (fun i => (EqPolynomial.evals r).getD i 0 * p.Z.getD i 0) := by
  have h : p.evaluate r =
      ((List.range (EqPolynomial.evals r).length).map
        (fun i => (EqPolynomial.evals r).getD i 0 * p.Z.getD i 0)).sum := rfl
  rw [h, length_evals]
  rfl

/-! ### Claim C1 -/

/-- C1: for every table `Z` with `Z.len() == 2^num_vars` and point `r` of
matching length, `DensePolynomial::evaluate` returns
`Σ_i evals(r)[i] * Z[i]`, which is the multilinear extension value
`Σ_{x∈{0,1}^n} eq(r,x) * Z[x]` (with `eq` the source `EqPolynomial::evaluate`
and `x` ranging over big-endian bit vectors); in particular, for
`Z = [1,2,1,4]` and `r = [4,3]`, `evaluate` returns `28` and this also equals
the outer-product `L·Z·R` computation built from `compute_factored_evals`. -/
theorem C1_evaluate_is_mle :
    (∀ Z r : List F, Z.length = 2 ^ r.length →
      (DensePolynomial.new Z).evaluate r =
        sumF (2 ^ r.length)
          (fun i => EqPolynomial.evaluate r (bitsBE r.length i) * Z.getD i 0)) ∧
    (DensePolynomial.new [(1 : F), 2, 1, 4]).evaluate [4, 3] = 28 ∧
    Tests.evaluate_with_LR [(1 : F), 2, 1, 4] [4, 3] = 28 ∧
    Tests.evaluate_with_LR [(1 : F), 2, 1, 4] [4, 3] =
      (DensePolynomial.new [(1 : F), 2, 1, 4]).evaluate [4, 3] := by
  have hsqrt : Nat.sqrt 4 = 2 := by norm_num
  have h28 : (DensePolynomial.new [(1 : F), 2, 1, 4]).evaluate [4, 3] = 28 := by
    simp [DensePolynomial.evaluate, DensePolynomial.new, EqPolynomial.evals,
      EqPolynomial.evalsLoop, EqPolynomial.evalsInner, List.range_succ]
    ring
  have hLR : Tests.evaluate_with_LR [(1 : F), 2, 1, 4] [4, 3] = 28 := by
    simp [Tests.evaluate_with_LR, EqPolynomial.compute_factored_evals,
      EqPolynomial.compute_factored_lens, EqPolynomial.evals, EqPolynomial.evalsLoop,
      EqPolynomial.evalsInner, hsqrt, List.range_succ]
    ring
  refine ⟨?_, h28, hLR, by rw [h28, hLR]⟩
  intro Z r hZ
  rw [evaluate_eq_sumF]
  apply sumF_congr
  intro i hi
  rw [eq_evaluate_bitsBE, getD_evals r i hi]
  rfl

/-- Witness for C1 at `Z = [1,2,1,4]`, `r = [4,3]` over `ℤ`. -/
theorem C1_witness :
    [(1 : Int), 2, 1, 4].length = 2 ^ [(4 : Int), 3].length ∧
    (DensePolynomial.new [(1 : Int), 2, 1, 4]).evaluate [4, 3] =
      sumF (2 ^ [(4 : Int), 3].length)
        (fun i => EqPolynomial.evaluate [(4 : Int), 3] (bitsBE [(4 : Int), 3].length i) *
          [(1 : Int), 2, 1, 4].getD i 0) :=
  ⟨by decide, C1_evaluate_is_mle.1 [(1 : Int), 2, 1, 4] [4, 3] (by decide)⟩

/-! ### Claim C2 -/

/-- C2: for every point `r` of length `ell`, the doubling-based
`EqPolynomial::evals` returns the length-`2^ell` table whose entry `i` is
`Π_{j<ell} (bit (ell-1-j) of i set ? r[j] : 1-r[j])` (so `r[0]` corresponds
to the most significant bit of the index), and the table is entry-for-entry
equal to the naive per-entry product-of-bits reference computation
(`compute_chis_at_r` from the source tests). -/
theorem C2_evals_doubling_matches_naive (r : List F) :
    (EqPolynomial.evals r).length = 2 ^ r.length ∧
    EqPolynomial.evals r = Tests.compute_chis_at_r r ∧
    ∀ i, i < 2 ^ r.length →
      (EqPolynomial.evals r).getD i 0 =
        prodF r.length (fun j =>
          if i &&& (1 <<< (r.length - j - 1)) > 0 then r.getD j 0 else 1 - r.getD j 0) :=
  ⟨length_evals r, evals_eq_compute_chis r, fun i hi => getD_evals_prod r i hi⟩

/-- Witness for C2 at `r = [4,3]`, entry `1` over `ℤ`. -/
theorem C2_witness :
    (EqPolynomial.evals [(4 : Int), 3]).getD 1 0 =
      prodF 2 (fun j =>
        if 1 &&& (1 <<< (2 - j - 1)) > 0 then [(4 : Int), 3].getD j 0
        else 1 - [(4 : Int), 3].getD j 0) :=
  (C2_evals_doubling_matches_naive [(4 : Int), 3]).2.2 1 (by decide)

/-! ### Claim C3 -/

/-- C3: for every point `r` of length `ell` (odd `ell` included), the pair
`(L, R)` returned by `compute_factored_evals` satisfies the outer-product
identity: the row-major flattened entry `(i, j)` — index `i * R.len + j`,
`L` varying slowest — of `evals()` on the unsplit point equals
`L[i] * R[j]`, for all `2^ell` entries. -/
theorem C3_outer_product_identity (r : List F) (i j : Nat)
    (hi : i < 2 ^ (r.length / 2)) (hj : j < 2 ^ (r.length - r.length / 2)) :
    (EqPolynomial.evals r).getD (i * 2 ^ (r.length - r.length / 2) + j) 0 =
      (EqPolynomial.compute_factored_evals r).1.getD i 0 *
        (EqPolynomial.compute_factored_evals r).2.getD j 0 :=
  factored_outer_entry r i j hi hj

/-- Witness for C3 at the odd-length point `r = [5]` over `ℤ`. -/
theorem C3_witness :
    (EqPolynomial.evals [(5 : Int)]).getD (0 * 2 ^ ((1 : Nat) - 1 / 2) + 1) 0 =
      (EqPolynomial.compute_factored_evals [(5 : Int)]).1.getD 0 0 *
        (EqPolynomial.compute_factored_evals [(5 : Int)]).2.getD 1 0 :=
  C3_outer_product_identity [(5 : Int)] 0 1 (by decide) (by decide)

/-! ### Claim C6 -/

/-- C6 counterexample: at the odd length `ell = 1` (point `r = [5]`), the
left factor returned by `compute_factored_evals` has length
`2^(1/2) = 2^0 = 1`, not `2^⌈1/2⌉ = 2` as claimed. -/
theorem C6_counterexample :
    ¬ (EqPolynomial.compute_factored_evals [(5 : Int)]).1.length = 2 ^ ((1 + 1) / 2) := by
  decide

/-- C6 (amended): for every point `r` of length `ell`,
`compute_factored_evals` returns `(L, R)` with `L` of size `2^⌊ell/2⌋` and
`R` of size `2^⌈ell/2⌉` (the right half receives the extra variable when
`ell` is odd); `L` comes from the first (high-order) `⌊ell/2⌋` coordinates,
`R` from the remaining low-order coordinates, and the row-major outer
product of `L` and `R` reproduces `evals()` on the unsplit point. -/
theorem C6_factored_sizes (r : List F) :
    (EqPolynomial.compute_factored_evals r).1.length = 2 ^ (r.length / 2) ∧
    (EqPolynomial.compute_factored_evals r).2.length = 2 ^ (r.length - r.length / 2) ∧
    (EqPolynomial.compute_factored_evals r).1 = EqPolynomial.evals (r.take (r.length / 2)) ∧
    (EqPolynomial.compute_factored_evals r).2 = EqPolynomial.evals (r.drop (r.length / 2)) ∧
    ∀ i j, i < 2 ^ (r.length / 2) → j < 2 ^ (r.length - r.length / 2) →
      (EqPolynomial.evals r).getD (i * 2 ^ (r.length - r.length / 2) + j) 0 =
        (EqPolynomial.compute_factored_evals r).1.getD i 0 *
          (EqPolynomial.compute_factored_evals r).2.getD j 0 := by
  refine ⟨?_, ?_, rfl, rfl, fun i j hi hj => factored_outer_entry r i j hi hj⟩
  · rw [show (EqPolynomial.compute_factored_evals r).1 =
      EqPolynomial.evals (r.take (r.length / 2)) from rfl, length_evals, length_take_half]
  · rw [show (EqPolynomial.compute_factored_evals r).2 =
      EqPolynomial.evals (r.drop (r.length / 2)) from rfl, length_evals, length_drop_half]

/-- Witness for C6 at `r = [5,7]` over `ℤ`. -/
theorem C6_witness :
    (EqPolynomial.compute_factored_evals [(5 : Int), 7]).1.length = 2 ^ ((2 : Nat) / 2) ∧
    (EqPolynomial.evals [(5 : Int), 7]).getD (1 * 2 ^ ((2 : Nat) - 2 / 2) + 0) 0 =
      (EqPolynomial.compute_factored_evals [(5 : Int), 7]).1.getD 1 0 *
        (EqPolynomial.compute_factored_evals [(5 : Int), 7]).2.getD 0 0 :=
  ⟨(C6_factored_sizes [(5 : Int), 7]).1,
    (C6_factored_sizes [(5 : Int), 7]).2.2.2.2 1 0 (by decide) (by decide)⟩

/-! ### Claim C9 -/

/-- C9: for every point `r` with `r.len() == size_point` (the source's
asserted precondition), `IdentityPolynomial::evaluate` returns
`Σ_i r[i] * 2^(size_point - i - 1)`, the multilinear extension of the
binary index function. -/
theorem C9_identity_evaluate (size_point : Nat) (r : List F) (h : r.length = size_point) :
    IdentityPolynomial.evaluate r =
      sumF size_point (fun i => r.getD i 0 * ((2 ^ (size_point - i - 1) : Nat) : F)) := by
  have h1 : IdentityPolynomial.evaluate r =
      sumF r.length (fun i => ((2 ^ (r.length - i - 1) : Nat) : F) * r.getD i 0) := rfl
  rw [h1, h]
  apply sumF_congr
  intro i _
  ring

/-- Witness for C9 at `r = [1,0,1]`, `size_point = 3` over `ℤ`. -/
theorem C9_witness :
    [(1 : Int), 0, 1].length = 3 ∧
    IdentityPolynomial.evaluate [(1 : Int), 0, 1] =
      sumF 3 (fun i => [(1 : Int), 0, 1].getD i 0 * ((2 ^ (3 - i - 1) : Nat) : Int)) :=
  ⟨rfl, C9_identity_evaluate 3 [(1 : Int), 0, 1] rfl⟩

/-! ### Claim C10 -/

/-- C10: for every polynomial with exactly one unbound variable
(`len == 2`, `num_vars == 1`) and every scalar `r`,
`bound_poly_var_top` and `bound_poly_var_bot` produce identical results:
both set the single remaining entry to `Z[0] + r*(Z[1] - Z[0])` and leave
`num_vars == 0` and `len == 1`. -/
theorem C10_top_bot_agree_len2 (p : DensePolynomial F) (r : F)
    (hlen : p.len = 2) (hnv : p.num_vars = 1) :
    p.bound_poly_var_top r = p.bound_poly_var_bot r ∧
    (p.bound_poly_var_top r).Z.getD 0 0 =
      p.Z.getD 0 0 + r * (p.Z.getD 1 0 - p.Z.getD 0 0) ∧
    (p.bound_poly_var_top r).num_vars = 0 ∧
    (p.bound_poly_var_top r).len = 1 := by
  have htop : p.bound_poly_var_top r =
      { num_vars := p.num_vars - 1, len := 1,
        Z := p.Z.set 0 (p.Z.getD 0 0 + r * (p.Z.getD 1 0 - p.Z.getD 0 0)) } := by
    simp [DensePolynomial.bound_poly_var_top, DensePolynomial.boundTopIter, hlen]
  have hbot : p.bound_poly_var_bot r =
      { num_vars := p.num_vars - 1, len := 1,
        Z := p.Z.set 0 (p.Z.getD 0 0 + r * (p.Z.getD 1 0 - p.Z.getD 0 0)) } := by
    simp [DensePolynomial.bound_poly_var_bot, DensePolynomial.boundBotIter, hlen]
  refine ⟨htop.trans hbot.symm, ?_, by rw [htop]; simp [hnv], by rw [htop]⟩
  rw [htop]
  by_cases hZ : p.Z = []
  · simp [hZ]
  · exact getD_set_self _ _ (List.length_pos.mpr hZ)

/-- Witness for C10 at `p = new [1,2]`, `r = 7` over `ℤ`. -/
theorem C10_witness :
    (DensePolynomial.new [(1 : Int), 2]).bound_poly_var_top 7 =
      (DensePolynomial.new [(1 : Int), 2]).bound_poly_var_bot 7 ∧
    ((DensePolynomial.new [(1 : Int), 2]).bound_poly_var_top 7).Z.getD 0 0 =
      [(1 : Int), 2].getD 0 0 + 7 * ([(1 : Int), 2].getD 1 0 - [(1 : Int), 2].getD 0 0) :=
  ⟨(C10_top_bot_agree_len2 (DensePolynomial.new [(1 : Int), 2]) 7 rfl
      (by simp [DensePolynomial.new, Nat.log2])).1,
    (C10_top_bot_agree_len2 (DensePolynomial.new [(1 : Int), 2]) 7 rfl
      (by simp [DensePolynomial.new, Nat.log2])).2.1⟩

/-! ### Claim C4 -/

/-- C4 counterexample: when the external opening check returns an error,
`verify` hits the `.unwrap()` and panics (modelled as `none`); it does not
report `ProofVerifyError::InternalError` to the caller. -/
theorem C4_counterexample :
    PolyEvalProof.verify 0 0 ([] : List Int) (fun _ _ => Except.error ()) 0 = none ∧
    (none : Option (Except ProofVerifyError Unit)) ≠
      some (Except.error ProofVerifyError.InternalError) :=
  ⟨rfl, fun h => Option.noConfusion h⟩

theorem verify_eq [DecidableEq F] (left_num_vars right_num_vars : Nat) (r : List F)
    (ext : List F → List F → Except Unit F) (eval : F)
    (h : left_num_vars + right_num_vars = r.length) :
    PolyEvalProof.verify left_num_vars right_num_vars r ext eval =
      match ext (EqPolynomial.evals (r.take left_num_vars))
          (EqPolynomial.evals (r.drop left_num_vars)) with
      | Except.error _ => none
      | Except.ok res =>
          if res = eval then some (Except.ok ())
          else some (Except.error ProofVerifyError.InternalError) := by
  simp only [PolyEvalProof.verify]
  rw [if_pos h]

/-- C4 (amended): given the variable-split check `left + right == r.len()`
(whose failure also panics), `verify` returns `Ok(())` exactly when the
external verify routine returns a scalar equal to the claimed evaluation; a
recombination mismatch is reported to the caller as
`ProofVerifyError::InternalError`; but an error from the external opening
check makes `verify` panic on `.unwrap()` (modelled `none`) instead of
returning an error. -/
theorem C4_verify_behavior [DecidableEq F] (left_num_vars right_num_vars : Nat) (r : List F)
    (ext : List F → List F → Except Unit F) (eval : F)
    (h : left_num_vars + right_num_vars = r.length) :
    (PolyEvalProof.verify left_num_vars right_num_vars r ext eval = some (Except.ok ()) ↔
      ext (EqPolynomial.evals (r.take left_num_vars))
        (EqPolynomial.evals (r.drop left_num_vars)) = Except.ok eval) ∧
    (∀ res, ext (EqPolynomial.evals (r.take left_num_vars))
        (EqPolynomial.evals (r.drop left_num_vars)) = Except.ok res → res ≠ eval →
      PolyEvalProof.verify left_num_vars right_num_vars r ext eval =
        some (Except.error ProofVerifyError.InternalError)) ∧
    (∀ e, ext (EqPolynomial.evals (r.take left_num_vars))
        (EqPolynomial.evals (r.drop left_num_vars)) = Except.error e →
      PolyEvalProof.verify left_num_vars right_num_vars r ext eval = none) := by
  have hv := verify_eq left_num_vars right_num_vars r ext eval h
  refine ⟨?_, ?_, ?_⟩
  · rw [hv]
    cases hext : ext (EqPolynomial.evals (r.take left_num_vars))
        (EqPolynomial.evals (r.drop left_num_vars)) with
    | error e => simp
    | ok res =>
      by_cases hres : res = eval
      · simp [hres]
      · simp [hres]
  · intro res hext hne
    rw [hv, hext]
    simp [hne]
  · intro e hext
    rw [hv, hext]

/-- Witness for C4 (amended) at the empty point over `ℤ`. -/
theorem C4_witness :
    (0 : Nat) + 0 = ([] : List Int).length ∧
    (PolyEvalProof.verify 0 0 ([] : List Int) (fun _ _ => Except.ok 5) 5 =
        some (Except.ok ()) ↔
      (fun (_ _ : List Int) => (Except.ok 5 : Except Unit Int))
        (EqPolynomial.evals (([] : List Int).take 0))
        (EqPolynomial.evals (([] : List Int).drop 0)) = Except.ok 5) :=
  ⟨rfl, (C4_verify_behavior 0 0 ([] : List Int) (fun _ _ => Except.ok 5) 5 rfl).1⟩

/-! ### Claim C5 -/

/-- The spec's representation invariant. -/
def Inv (p : DensePolynomial F) : Prop :=
  p.len = p.Z.length ∧ p.Z.length = 2 ^ p.num_vars

theorem log2_two_pow (n : Nat) : Nat.log2 (2 ^ n) = n := by
  rw [Nat.log2_eq_log_two]
  exact Nat.log_pow (by norm_num) n

theorem pow_div_two {n : Nat} (h : 1 ≤ n) : 2 ^ n / 2 = 2 ^ (n - 1) := by
  obtain ⟨m, rfl⟩ : ∃ m, n = m + 1 := ⟨n - 1, by omega⟩
  rw [pow_succ, Nat.mul_div_cancel _ (by norm_num), Nat.add_sub_cancel]

theorem Inv_new (Z : List F) (n : Nat) (h : Z.length = 2 ^ n) :
    Inv (DensePolynomial.new Z) := by
  unfold Inv DensePolynomial.new
  refine ⟨rfl, ?_⟩
  rw [h, log2_two_pow]

theorem length_boundTopIter (r : F) (n : Nat) :
    ∀ (k : Nat) (Z : List F), (DensePolynomial.boundTopIter r n k Z).length = Z.length := by
  intro k
  induction k with
  | zero => intro Z; rfl
  | succ k ih => intro Z; simp [DensePolynomial.boundTopIter, ih]

theorem length_boundBotIter (r : F) :
    ∀ (k : Nat) (Z : List F), (DensePolynomial.boundBotIter r k Z).length = Z.length := by
  intro k
  induction k with
  | zero => intro Z; rfl
  | succ k ih => intro Z; simp [DensePolynomial.boundBotIter, ih]

theorem length_resizeVec (l : List F) (n : Nat) (v : F) :
    (DensePolynomial.resizeVec l n v).length = n := by
  unfold DensePolynomial.resizeVec
  split
  · next h => simp [List.length_take, Nat.min_eq_left h]
  · next h => simp [List.length_append, List.length_replicate]; omega

/-- C5 counterexample: `bound_poly_var_top` shrinks `len` but leaves the
backing vector at its old length, so `len == Z.len()` fails afterwards
(here: `len = 1` but `Z.len() = 2`). -/
theorem C5_counterexample :
    ((DensePolynomial.new [(1 : Int), 2]).bound_poly_var_top 0).len ≠
      ((DensePolynomial.new [(1 : Int), 2]).bound_poly_var_top 0).Z.length := by
  decide

/-- C5 (amended): the constructing operations — `new` on a
power-of-two-length table, `extend` under its asserts, `merge`, `clone`,
and `split` at `idx = len/2` — leave the result satisfying
`len == Z.len() == 2^num_vars`; the in-place binding operations
`bound_poly_var_top`/`bound_poly_var_bot` preserve `len == 2^num_vars` and
leave the backing storage length unchanged, so `len == Z.len()` does not
hold after binding. -/
theorem C5_invariants :
    (∀ (Z : List F) (n : Nat), Z.length = 2 ^ n → Inv (DensePolynomial.new Z)) ∧
    (∀ (p : DensePolynomial F) (r : F), Inv p → 1 ≤ p.num_vars →
      (p.bound_poly_var_top r).len = 2 ^ (p.bound_poly_var_top r).num_vars ∧
      (p.bound_poly_var_top r).Z.length = p.Z.length) ∧
    (∀ (p : DensePolynomial F) (r : F), Inv p → 1 ≤ p.num_vars →
      (p.bound_poly_var_bot r).len = 2 ^ (p.bound_poly_var_bot r).num_vars ∧
      (p.bound_poly_var_bot r).Z.length = p.Z.length) ∧
    (∀ p other : DensePolynomial F, Inv p → other.Z.length = p.len →
      Inv (p.extend other)) ∧
    (∀ polys : List (DensePolynomial F), Inv (DensePolynomial.merge polys)) ∧
    (∀ p : DensePolynomial F, Inv p → Inv p.clone) ∧
    (∀ p : DensePolynomial F, Inv p → 2 ≤ p.len →
      Inv ((p.split (p.len / 2)).1) ∧ Inv ((p.split (p.len / 2)).2)) := by
  refine ⟨fun Z n h => Inv_new Z n h, ?_, ?_, ?_, ?_, ?_, ?_⟩
  · intro p r hInv hnv
    obtain ⟨h1, h2⟩ := hInv
    constructor
    · show p.len / 2 = 2 ^ (p.num_vars - 1)
      rw [h1, h2, pow_div_two hnv]
    · exact length_boundTopIter r (p.len / 2) (p.len / 2) p.Z
  · intro p r hInv hnv
    obtain ⟨h1, h2⟩ := hInv
    constructor
    · show p.len / 2 = 2 ^ (p.num_vars - 1)
      rw [h1, h2, pow_div_two hnv]
    · exact length_boundBotIter r (p.len / 2) p.Z
  · intro p other hInv hother
    obtain ⟨h1, h2⟩ := hInv
    have hp2 : (2 : Nat) ^ (p.num_vars + 1) = 2 ^ p.num_vars * 2 := pow_succ 2 p.num_vars
    constructor
    · show p.len * 2 = (p.Z ++ other.vec).length
      rw [List.length_append]
      unfold DensePolynomial.vec
      omega
    · show (p.Z ++ other.vec).length = 2 ^ (p.num_vars + 1)
      rw [List.length_append]
      unfold DensePolynomial.vec
      omega
  · intro polys
    show Inv (DensePolynomial.new _)
    exact Inv_new _ _ (length_resizeVec _ _ _)
  · intro p hInv
    obtain ⟨h1, h2⟩ := hInv
    show Inv (DensePolynomial.new (p.Z.take p.len))
    apply Inv_new _ p.num_vars
    rw [List.length_take, h1, Nat.min_self]
    exact h2
  · intro p hInv hge
    obtain ⟨h1, h2⟩ := hInv
    have hnv : 1 ≤ p.num_vars := by
      by_contra hc
      have h0 : p.num_vars = 0 := by omega
      rw [h0, pow_zero] at h2
      omega
    have hhalf : p.len / 2 = 2 ^ (p.num_vars - 1) := by
      rw [h1, h2, pow_div_two hnv]
    have hlenZ : p.len ≤ p.Z.length := by omega
    constructor
    · show Inv (DensePolynomial.new (p.Z.take (p.len / 2)))
      apply Inv_new _ (p.num_vars - 1)
      rw [List.length_take, Nat.min_eq_left (by omega), hhalf]
    · show Inv (DensePolynomial.new ((p.Z.drop (p.len / 2)).take (p.len / 2)))
      apply Inv_new _ (p.num_vars - 1)
      rw [List.length_take, List.length_drop]
      have hdle : p.len / 2 ≤ p.Z.length - p.len / 2 := by omega
      rw [Nat.min_eq_left hdle, hhalf]

/-! ### Claim C7 -/

theorem sumF_add_pointwise (n : Nat) (f g : Nat → F) :
    sumF n (fun i => f i + g i) = sumF n f + sumF n g := by
  induction n with
  | zero => simp [sumF]
  | succ k ih =>
    rw [sumF_succ, sumF_succ, sumF_succ, ih]
    ring

theorem getD_boundTopIter (r : F) (n : Nat) :
    ∀ (k : Nat) (Z : List F), k ≤ n → 2 * n ≤ Z.length → ∀ i : Nat,
      (DensePolynomial.boundTopIter r n k Z).getD i 0 =
        if i < k then Z.getD i 0 + r * (Z.getD (i + n) 0 - Z.getD i 0)
        else Z.getD i 0 := by
  intro k
  induction k with
  | zero => intro Z _ _ i; simp [DensePolynomial.boundTopIter]
  | succ k ih =>
    intro Z hk hn i
    have hstep : DensePolynomial.boundTopIter r n (k + 1) Z =
        (DensePolynomial.boundTopIter r n k Z).set k
          ((DensePolynomial.boundTopIter r n k Z).getD k 0 +
            r * ((DensePolynomial.boundTopIter r n k Z).getD (k + n) 0 -
              (DensePolynomial.boundTopIter r n k Z).getD k 0)) := rfl
    have hk0 : (DensePolynomial.boundTopIter r n k Z).getD k 0 = Z.getD k 0 := by
      rw [ih Z (by omega) hn k, if_neg (by omega)]
    have hkn : (DensePolynomial.boundTopIter r n k Z).getD (k + n) 0 = Z.getD (k + n) 0 := by
      rw [ih Z (by omega) hn (k + n), if_neg (by omega)]
    rw [hstep, hk0, hkn]
    by_cases hik : i = k
    · subst hik
      rw [getD_set_self _ _ (by rw [length_boundTopIter]; omega), if_pos (by omega)]
    · rw [getD_set_ne _ _ (fun he => hik he.symm), ih Z (by omega) hn i]
      by_cases hi : i < k
      · rw [if_pos hi, if_pos (by omega)]
      · rw [if_neg hi, if_neg (by omega)]

theorem sum_chi_split (r0 : F) (rest : List F) (g : Nat → F) :
    sumF (2 ^ (rest.length + 1)) (fun i => chiLSB i (rest.reverse ++ [r0]) * g i) =
      sumF (2 ^ rest.length) (fun i =>
        chiLSB i rest.reverse * (g i + r0 * (g (i + 2 ^ rest.length) - g i))) := by
  set t := rest.length with ht
  have hsplit : (2 : Nat) ^ (t + 1) = 2 ^ t + 2 ^ t := by ring
  rw [hsplit, sumF_add]
  have hlo : ∀ i, i < 2 ^ t →
      chiLSB i (rest.reverse ++ [r0]) * g i = chiLSB i rest.reverse * ((1 - r0) * g i) := by
    intro i hi
    rw [chiLSB_append, chiLSB_singleton]
    have hi0 : i / 2 ^ rest.reverse.length = 0 := by
      rw [List.length_reverse]
      exact Nat.div_eq_of_lt hi
    rw [hi0, if_neg (by norm_num : ¬ (0 : Nat) % 2 = 1)]
    ring
  have hhi : ∀ i, i < 2 ^ t →
      chiLSB (2 ^ t + i) (rest.reverse ++ [r0]) * g (2 ^ t + i) =
        chiLSB i rest.reverse * (r0 * g (2 ^ t + i)) := by
    intro i hi
    rw [chiLSB_append, chiLSB_singleton]
    have hq : (2 ^ t + i) / 2 ^ rest.reverse.length = 1 := by
      rw [List.length_reverse, ← ht, Nat.add_comm, Nat.add_div_right i (Nat.two_pow_pos t),
        Nat.div_eq_of_lt hi]
    have hmod : chiLSB (2 ^ t + i) rest.reverse = chiLSB i rest.reverse := by
      have h := chiLSB_mod (F := F) rest.reverse (2 ^ t + i)
      rw [List.length_reverse, ← ht] at h
      have he : (2 ^ t + i) % 2 ^ t = i := by
        rw [Nat.add_comm, Nat.add_mod_right, Nat.mod_eq_of_lt hi]
      rw [he] at h
      exact h.symm
    rw [hq, hmod, if_pos (by norm_num : (1 : Nat) % 2 = 1)]
    ring
  have e1 : sumF (2 ^ t) (fun i => chiLSB i (rest.reverse ++ [r0]) * g i) =
      sumF (2 ^ t) (fun i => chiLSB i rest.reverse * ((1 - r0) * g i)) := sumF_congr hlo
  have e2 : sumF (2 ^ t) (fun i => chiLSB (2 ^ t + i) (rest.reverse ++ [r0]) * g (2 ^ t + i)) =
      sumF (2 ^ t) (fun i => chiLSB i rest.reverse * (r0 * g (2 ^ t + i))) := sumF_congr hhi
  rw [e1, e2, ← sumF_add_pointwise]
  apply sumF_congr
  intro i hi
  rw [Nat.add_comm (2 ^ t) i]
  ring

theorem foldl_bound_top (rs : List F) :
    ∀ p : DensePolynomial F, p.len = 2 ^ rs.length → p.len ≤ p.Z.length →
      (rs.foldl (fun q ri => q.bound_poly_var_top ri) p).len = 1 ∧
      (rs.foldl (fun q ri => q.bound_poly_var_top ri) p).Z.length = p.Z.length ∧
      (rs.foldl (fun q ri => q.bound_poly_var_top ri) p).Z.getD 0 0 =
        sumF (2 ^ rs.length) (fun i => chiLSB i rs.reverse * p.Z.getD i 0) := by
  induction rs with
  | nil =>
    intro p hlen hle
    refine ⟨hlen, rfl, ?_⟩
    have hr : List.range 1 = [0] := rfl
    have h1 : sumF 1 (fun i => chiLSB i (List.reverse ([] : List F)) * p.Z.getD i 0) =
        p.Z.getD 0 0 := by
      simp [sumF, hr, chiLSB]
    exact h1.symm
  | cons r0 rest ih =>
    intro p hlen hle
    have hfold : (r0 :: rest).foldl (fun q ri => q.bound_poly_var_top ri) p =
        rest.foldl (fun q ri => q.bound_poly_var_top ri) (p.bound_poly_var_top r0) := rfl
    set p' := p.bound_poly_var_top r0 with hp'
    have hc : (r0 :: rest).length = rest.length + 1 := rfl
    have hlen2 : p.len = 2 ^ (rest.length + 1) := by rw [hlen, hc]
    have hlen' : p'.len = 2 ^ rest.length := by
      show p.len / 2 = 2 ^ rest.length
      rw [hlen2, pow_div_two (by omega), Nat.add_sub_cancel]
    have hZlen' : p'.Z.length = p.Z.length :=
      length_boundTopIter r0 (p.len / 2) (p.len / 2) p.Z
    have hle' : p'.len ≤ p'.Z.length := by
      rw [hlen', hZlen']
      calc (2 : Nat) ^ rest.length ≤ 2 ^ (rest.length + 1) :=
            Nat.pow_le_pow_right (by norm_num) (by omega)
        _ = p.len := hlen2.symm
        _ ≤ p.Z.length := hle
    obtain ⟨hl1, hl2, hl3⟩ := ih p' hlen' hle'
    have h2n : 2 * (p.len / 2) ≤ p.Z.length := by
      have hx : p.len / 2 = 2 ^ rest.length := hlen'
      have hy : 2 * 2 ^ rest.length = 2 ^ (rest.length + 1) := by ring
      rw [hx, hy, ← hlen2]
      exact hle
    have hstep : ∀ i, i < 2 ^ rest.length → p'.Z.getD i 0 =
        p.Z.getD i 0 + r0 * (p.Z.getD (i + 2 ^ rest.length) 0 - p.Z.getD i 0) := by
      intro i hi
      have hbase : p'.Z.getD i 0 =
          if i < p.len / 2 then
            p.Z.getD i 0 + r0 * (p.Z.getD (i + p.len / 2) 0 - p.Z.getD i 0)
          else p.Z.getD i 0 :=
        getD_boundTopIter r0 (p.len / 2) (p.len / 2) p.Z (le_refl _) h2n i
      have hn : p.len / 2 = 2 ^ rest.length := hlen'
      rw [hbase, hn, if_pos hi]
    refine ⟨by rw [hfold]; exact hl1, by rw [hfold, hl2, hZlen'], ?_⟩
    rw [hfold, hl3]
    have e1 : sumF (2 ^ rest.length) (fun i => chiLSB i rest.reverse * p'.Z.getD i 0) =
        sumF (2 ^ rest.length) (fun i => chiLSB i rest.reverse *
          (p.Z.getD i 0 + r0 * (p.Z.getD (i + 2 ^ rest.length) 0 - p.Z.getD i 0))) :=
      sumF_congr (fun i hi => by rw [hstep i hi])
    have e2 := sum_chi_split r0 rest (fun i => p.Z.getD i 0)
    have hrev : (r0 :: rest).reverse = rest.reverse ++ [r0] := by simp
    rw [e1, ← e2, hc, hrev]

/-- C7: binding all `num_vars` variables one at a time via
`bound_poly_var_top` (in variable order) to the coordinates of `r` yields a
length-1 table whose sole entry is `evaluate(Z, r)`; each individual step
performs `Z[i] ← Z[i] + r*(Z[i+n] - Z[i])` for `i < len/2` (with
`n = len/2`), then decrements `num_vars` and halves `len`. -/
theorem C7_bind_top_evaluates :
    (∀ Z r : List F, Z.length = 2 ^ r.length →
      (r.foldl (fun q ri => q.bound_poly_var_top ri) (DensePolynomial.new Z)).len = 1 ∧
      (r.foldl (fun q ri => q.bound_poly_var_top ri) (DensePolynomial.new Z)).Z.getD 0 0 =
        (DensePolynomial.new Z).evaluate r) ∧
    (∀ (p : DensePolynomial F) (r : F),
      (p.bound_poly_var_top r).num_vars = p.num_vars - 1 ∧
      (p.bound_poly_var_top r).len = p.len / 2 ∧
      (2 * (p.len / 2) ≤ p.Z.length → ∀ i, i < p.len / 2 →
        (p.bound_poly_var_top r).Z.getD i 0 =
          p.Z.getD i 0 + r * (p.Z.getD (i + p.len / 2) 0 - p.Z.getD i 0))) := by
  constructor
  · intro Z r hZ
    have hfold := foldl_bound_top r (DensePolynomial.new Z)
      (by show Z.length = 2 ^ r.length; exact hZ)
      (by show Z.length ≤ Z.length; exact le_refl _)
    obtain ⟨h1, _, h3⟩ := hfold
    refine ⟨h1, ?_⟩
    rw [h3, evaluate_eq_sumF]
    apply sumF_congr
    intro i hi
    rw [getD_evals r i hi]
  · intro p r
    refine ⟨rfl, rfl, ?_⟩
    intro hlen i hi
    have hbase : (p.bound_poly_var_top r).Z.getD i 0 =
        if i < p.len / 2 then
          p.Z.getD i 0 + r * (p.Z.getD (i + p.len / 2) 0 - p.Z.getD i 0)
        else p.Z.getD i 0 :=
      getD_boundTopIter r (p.len / 2) (p.len / 2) p.Z (le_refl _) hlen i
    rw [hbase, if_pos hi]

/-- Witness for C7 at `Z = [1,2,1,4]`, `r = [4,3]` over `ℤ`. -/
theorem C7_witness :
    [(1 : Int), 2, 1, 4].length = 2 ^ [(4 : Int), 3].length ∧
    ([(4 : Int), 3].foldl (fun q ri => q.bound_poly_var_top ri)
        (DensePolynomial.new [(1 : Int), 2, 1, 4])).Z.getD 0 0 =
      (DensePolynomial.new [(1 : Int), 2, 1, 4]).evaluate [4, 3] :=
  ⟨by decide, (C7_bind_top_evaluates.1 [(1 : Int), 2, 1, 4] [4, 3] (by decide)).2⟩

/-! ### Claim C8 -/

theorem foldl_append_eq_flatten (polys : List (DensePolynomial F)) :
    ∀ acc : List F, polys.foldl (fun acc q => acc ++ q.vec) acc =
      acc ++ (polys.map DensePolynomial.vec).flatten := by
  induction polys with
  | nil => intro acc; simp
  | cons q qs ih => intro acc; simp [ih, List.append_assoc]

theorem npt_ge (n : Nat) : n ≤ DensePolynomial.next_power_of_two n :=
  Nat.le_pow_clog (by norm_num) n

theorem resizeVec_pad (l : List F) (n : Nat) (v : F) (h : l.length ≤ n) :
    DensePolynomial.resizeVec l n v = l ++ List.replicate (n - l.length) v := by
  unfold DensePolynomial.resizeVec
  split
  · next h2 =>
    have heq : n = l.length := le_antisymm h2 h
    subst heq
    rw [List.take_length, Nat.sub_self, List.replicate_zero, List.append_nil]
  · next _ => rfl

/-- C8: `merge` concatenates the input tables in order and zero-pads up to
the next power of two; consequently, for equal power-of-two-length tables
`ZA`, `ZB`, `split(merge([new ZA, new ZB]), ZA.len())` recovers the pair
`(new ZA, new ZB)` exactly (no padding introduced). -/
theorem C8_merge_concat_split :
    (∀ polys : List (DensePolynomial F),
      (DensePolynomial.merge polys).Z =
        (polys.map DensePolynomial.vec).flatten ++
          List.replicate
            (DensePolynomial.next_power_of_two (polys.map DensePolynomial.vec).flatten.length -
              (polys.map DensePolynomial.vec).flatten.length) 0) ∧
    (∀ (ZA ZB : List F) (k : Nat), ZA.length = 2 ^ k → ZB.length = 2 ^ k →
      (DensePolynomial.merge [DensePolynomial.new ZA, DensePolynomial.new ZB]).split ZA.length =
        (DensePolynomial.new ZA, DensePolynomial.new ZB)) := by
  constructor
  · intro polys
    have hJ : polys.foldl (fun acc q => acc ++ q.vec) [] =
        (polys.map DensePolynomial.vec).flatten := by
      rw [foldl_append_eq_flatten polys [], List.nil_append]
    show DensePolynomial.resizeVec (polys.foldl (fun acc q => acc ++ q.vec) [])
        (DensePolynomial.next_power_of_two
          (polys.foldl (fun acc q => acc ++ q.vec) []).length) 0 = _
    rw [hJ]
    exact resizeVec_pad _ _ _ (npt_ge _)
  · intro ZA ZB k hA hB
    have hJ : [DensePolynomial.new ZA, DensePolynomial.new ZB].foldl
        (fun acc q => acc ++ q.vec) [] = ZA ++ ZB := by
      simp [DensePolynomial.vec, DensePolynomial.new]
    have hlen : (ZA ++ ZB).length = 2 ^ (k + 1) := by
      rw [List.length_append, hA, hB]
      ring
    have hnpt : DensePolynomial.next_power_of_two (ZA ++ ZB).length = 2 ^ (k + 1) := by
      rw [hlen]
      unfold DensePolynomial.next_power_of_two
      rw [Nat.clog_pow 2 (k + 1) (by norm_num)]
    have hresize : DensePolynomial.resizeVec (ZA ++ ZB)
        (DensePolynomial.next_power_of_two (ZA ++ ZB).length) 0 = ZA ++ ZB := by
      unfold DensePolynomial.resizeVec
      rw [hnpt, if_pos (le_of_eq hlen.symm), ← hlen, List.take_length]
    have hmerge : DensePolynomial.merge [DensePolynomial.new ZA, DensePolynomial.new ZB] =
        DensePolynomial.new (ZA ++ ZB) := by
      show DensePolynomial.new (DensePolynomial.resizeVec
        ([DensePolynomial.new ZA, DensePolynomial.new ZB].foldl (fun acc q => acc ++ q.vec) [])
        (DensePolynomial.next_power_of_two
          ([DensePolynomial.new ZA, DensePolynomial.new ZB].foldl
            (fun acc q => acc ++ q.vec) []).length) 0) = _
      rw [hJ, hresize]
    rw [hmerge]
    have h1 : (ZA ++ ZB).take ZA.length = ZA := List.take_left ZA ZB
    have h2 : ((ZA ++ ZB).drop ZA.length).take ZA.length = ZB := by
      rw [List.drop_left, hA, ← hB, List.take_length]
    show (DensePolynomial.new ((ZA ++ ZB).take ZA.length),
      DensePolynomial.new (((ZA ++ ZB).drop ZA.length).take ZA.length)) = _
    rw [h1, h2]

/-- Witness for C8 at `ZA = [1,2]`, `ZB = [3,4]` over `ℤ`. -/
theorem C8_witness :
    [(1 : Int), 2].length = 2 ^ 1 ∧ [(3 : Int), 4].length = 2 ^ 1 ∧
    (DensePolynomial.merge [DensePolynomial.new [(1 : Int), 2],
        DensePolynomial.new [(3 : Int), 4]]).split [(1 : Int), 2].length =
      (DensePolynomial.new [(1 : Int), 2], DensePolynomial.new [(3 : Int), 4]) :=
  ⟨by decide, by decide,
    C8_merge_concat_split.2 [(1 : Int), 2] [(3 : Int), 4] 1 (by decide) (by decide)⟩

/-- Witness for C5 at concrete polynomials over `ℤ`. -/
theorem C5_witness :
    Inv (DensePolynomial.new [(1 : Int), 2, 3, 4]) ∧
    ((DensePolynomial.new [(1 : Int), 2]).bound_poly_var_top 5).len =
      2 ^ ((DensePolynomial.new [(1 : Int), 2]).bound_poly_var_top 5).num_vars ∧
    Inv (DensePolynomial.merge ([] : List (DensePolynomial Int))) :=
  ⟨C5_invariants.1 [(1 : Int), 2, 3, 4] 2 (by decide),
    (C5_invariants.2.1 (DensePolynomial.new [(1 : Int), 2]) 5
      ⟨rfl, by simp [DensePolynomial.new, Nat.log2]⟩
      (by simp [DensePolynomial.new, Nat.log2])).1,
    C5_invariants.2.2.2.2.1 []⟩

end Spartan
